import Mathlib

set_option maxHeartbeats 1000000

/-!
Shallow embedding of the text-processing core of the repository:
the chunker `chunk_text` from file_processor.py, the record validation
inside `upsert_data` from pinecone_client.py, and the context assembler
`build_context` from pinecone_client.py.

Modelling conventions: Python strings are `List Char`, Python ints are
`Int`, Python slice indices follow the clamping rules of CPython
(`pyIdx`, `pySlice`), `str.rfind` is modelled by `rfindChar` and (for
the two-character pattern ". ") `rfindPair`.  The `while` loop of
`chunk_text` can genuinely diverge, so it is modelled with an explicit
fuel parameter; `none` means the fuel ran out.  The tokenizer that
`build_context` obtains from tiktoken is modelled as an injected
`Tokenizer` record (encode/decode), as the specification prescribes for
deterministic testing; `charTok` is the fixed-width one-token-per-
character instance.  External effects (the Pinecone index) are modelled
by recording the store calls that `upsert_data` issues.
-/

/-- The ASCII whitespace characters removed by the Python method `strip`:
space, tab, newline, carriage return, vertical tab, form feed. -/
def isPySpace (c : Char) : Bool :=
  (c == Char.ofNat 32) || (c == Char.ofNat 9) || (c == Char.ofNat 10) ||
  (c == Char.ofNat 13) || (c == Char.ofNat 11) || (c == Char.ofNat 12)

/-- Python `text.strip()`: remove leading and trailing whitespace. -/
def trim (l : List Char) : List Char :=
  ((l.dropWhile isPySpace).reverse.dropWhile isPySpace).reverse

/-- Adjust one Python slice bound on a sequence of length `n`: negative
indices count from the end, and the result is clamped into `[0, n]`. -/
def pyIdx (i : Int) (n : Nat) : Nat :=
  if i < 0 then (i + n).toNat else min i.toNat n

/-- Python `l[a:b]` (step 1). -/
def pySlice (l : List Char) (a b : Int) : List Char :=
  (l.take (pyIdx b l.length)).drop (pyIdx a l.length)

/-- Helper for `rfindChar`: scan the list keeping the index of the last
occurrence seen so far (`best` starts at -1). -/
def rfindCharAux (c : Char) : List Char → Nat → Int → Int
  | [], _, best => best
  | a :: rest, i, best => rfindCharAux c rest (i + 1) (if a = c then (i : Int) else best)

/-- Python `l.rfind(c)` for a single character: the greatest index at
which `c` occurs, or -1 when it does not occur. -/
def rfindChar (l : List Char) (c : Char) : Int :=
  rfindCharAux c l 0 (-1)

/-- Helper for `rfindPair`: scan adjacent pairs keeping the index of the
last matching pair seen so far. -/
def rfindPairAux (c₁ c₂ : Char) : List Char → Nat → Int → Int
  | [], _, best => best
  | [_], _, best => best
  | a :: b :: rest, i, best =>
      rfindPairAux c₁ c₂ (b :: rest) (i + 1) (if a = c₁ ∧ b = c₂ then (i : Int) else best)

/-- Python `l.rfind(p)` for a two-character pattern `p = c₁c₂` (used by
the source for the pattern ". "): the greatest index at which the
pattern starts, or -1. -/
def rfindPair (l : List Char) (c₁ c₂ : Char) : Int :=
  rfindPairAux c₁ c₂ l 0 (-1)

/-- The break-point search of `chunk_text` (file_processor.py, lines
186-190): last newline; if absent or not within the last 200 characters
of the window, last ". "; if that is absent or not within the last 200
characters, last space.  Characters: 10 = newline, 46 = full stop,
32 = space. -/
def findBreak (chunk : List Char) (chunk_size : Int) : Int :=
  let bp1 := rfindChar chunk (Char.ofNat 10)
  let bp2 := if bp1 = -1 ∨ bp1 < chunk_size - 200 then rfindPair chunk (Char.ofNat 46) (Char.ofNat 32) else bp1
  if bp2 = -1 ∨ bp2 < chunk_size - 200 then rfindChar chunk (Char.ofNat 32) else bp2

/-- One iteration of the `while` loop of `chunk_text` up to the append:
given `start`, produce the (possibly boundary-truncated) chunk and the
final value of `end` (file_processor.py, lines 177-194).  Python `//`
is `Int.fdiv` (floor division). -/
def chunkStep (t : List Char) (chunk_size overlap start : Int) : List Char × Int :=
  let e := start + chunk_size
  let chunk := pySlice t start e
  if e < (t.length : Int) ∧ 0 < overlap then
    let bp := findBreak chunk chunk_size
    if bp > Int.fdiv chunk_size 2 then (pySlice chunk 0 bp, start + bp) else (chunk, e)
  else (chunk, e)

/-- The `while` loop of `chunk_text` (file_processor.py, lines 176-201),
with fuel: each pass appends `chunk.strip()` and advances
`start := end - overlap`, stopping when `start` reaches the text length. -/
def chunkLoop (t : List Char) (chunk_size overlap : Int) : Nat → Int → List (List Char) → Option (List (List Char))
  | 0, _, _ => none
  | fuel + 1, start, chunks =>
    if start < (t.length : Int) then
      if (t.length : Int) ≤ (chunkStep t chunk_size overlap start).2 - overlap then
        some (chunks ++ [trim (chunkStep t chunk_size overlap start).1])
      else
        chunkLoop t chunk_size overlap fuel ((chunkStep t chunk_size overlap start).2 - overlap)
          (chunks ++ [trim (chunkStep t chunk_size overlap start).1])
    else some chunks

/-- `chunk_text` (file_processor.py, lines 151-203): empty or
whitespace-only text gives `[]`; text no longer than `chunk_size` gives
the single trimmed chunk; otherwise the windowing loop runs.  `none`
means the loop did not finish within `fuel` iterations. -/
def chunk_text (text : List Char) (chunk_size overlap : Int) (fuel : Nat) : Option (List (List Char)) :=
  let t := trim text
  if t = [] then some []
  else if (t.length : Int) ≤ chunk_size then some [t]
  else chunkLoop t chunk_size overlap fuel 0 []

/-- The token encode/decode capability used by `build_context`
(tiktoken in the source; the specification prescribes it as an injected
capability).  The token count of a string is the length of its
encoding, exactly as the source computes it. -/
structure Tokenizer where
  encode : List Char → List Nat
  decode : List Nat → List Char

/-- The fixed-width tokenizer: one token per character.  This is the
deterministic fake tokenizer the specification proposes for testing. -/
def charTok : Tokenizer :=
  ⟨fun s => s.map Char.toNat, fun ts => ts.map (fun n => Char.ofNat n)⟩

/-- The accumulation loop of `build_context` (pinecone_client.py, lines
111-133): greedy fill in rank order; the first hit that would overflow
is truncated at the token level (take `remaining` tokens of its
encoding, decode, append with a leading space) and the loop stops. -/
def buildLoop (tok : Tokenizer) (max_tokens : Int) : List (List Char) → Int → List Char → List Char
  | [], _, context => context
  | h :: rest, current_tokens, context =>
    let tokens_to_add : Int := (tok.encode (Char.ofNat 32 :: h)).length
    if current_tokens + tokens_to_add > max_tokens then
      let remaining := max_tokens - current_tokens
      if 0 < remaining then
        let encoded := tok.encode h
        if 0 < encoded.length then
          context ++ Char.ofNat 32 :: tok.decode (encoded.take remaining.toNat)
        else context
      else context
    else buildLoop tok max_tokens rest (current_tokens + tokens_to_add) (context ++ Char.ofNat 32 :: h)

/-- `build_context` (pinecone_client.py, lines 93-135) restricted to its
pure core: the Pinecone search is an external collaborator, so the
ranked hit texts are taken as input.  No hits gives `none` (the source
returns None). -/
def build_context (tok : Tokenizer) (hits : List (List Char)) (max_tokens : Int) : Option (List Char) :=
  if hits.length = 0 then none
  else some (buildLoop tok max_tokens hits 0 [])

/-- One record as handed to `upsert_data`: a missing `_id`, `text` or
`assistant` field behaves exactly like the empty string under the
falsiness checks of the source, so fields are plain strings. -/
structure Record where
  _id : String
  text : String
  assistant : String
deriving DecidableEq

/-- Python `s.strip()` on the string type. -/
def trimS (s : String) : String := String.mk (trim s.data)

/-- The validation predicate of the filtering loop of `upsert_data`
(pinecone_client.py, lines 40-66): text non-empty, stripped text
non-empty and at least 3 characters, `_id` and `assistant` non-empty. -/
def keepRecord (r : Record) : Bool :=
  r.text != "" && trimS r.text != "" && decide (3 ≤ (trimS r.text).length) &&
  r._id != "" && r.assistant != ""

/-- Result of the filtering loop: the caller-visible state of the input
records after the loop (the source assigns `record["text"] =
text_stripped` in place), the list of valid records, and the number of
filtered-out records. -/
structure ValidationOut where
  post : List Record
  valid : List Record
  filteredCount : Nat
deriving DecidableEq

/-- The filtering loop of `upsert_data` (pinecone_client.py, lines
40-70): kept records have their text overwritten by the stripped text
(in place, hence also in `post`); rejected records are untouched and
counted. -/
def validateRecords : List Record → ValidationOut
  | [] => ⟨[], [], 0⟩
  | r :: rs =>
    let rest := validateRecords rs
    if keepRecord r then
      ⟨{ r with text := trimS r.text } :: rest.post, { r with text := trimS r.text } :: rest.valid, rest.filteredCount⟩
    else
      ⟨r :: rest.post, rest.valid, rest.filteredCount + 1⟩

/-- The message of the all-records-rejected ValueError
(pinecone_client.py, line 73). -/
def allRejectedMsg (filtered_count : Nat) : String :=
  "No valid records after filtering. Filtered out " ++ toString filtered_count ++ " invalid records."

/-- Observable outcome of `upsert_data`: the caller-visible state of the
input records, the list of upsert calls issued to the external store,
and either a raised ValueError message or the returned success
message. -/
structure UpsertResult where
  post : List Record
  storeCalls : List (List Record)
  outcome : Except String String

/-- `upsert_data` (pinecone_client.py, lines 19-90): empty input raises
at once; then the filtering loop runs; if nothing survives the
all-rejected ValueError is raised; otherwise the valid records are
upserted and the success message returned (the external call itself is
assumed to succeed, as it is a collaborator). -/
def upsert_data (records : List Record) : UpsertResult :=
  if records = [] then ⟨records, [], Except.error "No records provided for upsert"⟩
  else
    let v := validateRecords records
    if v.valid = [] then ⟨v.post, [], Except.error (allRejectedMsg v.filteredCount)⟩
    else ⟨v.post, [v.valid], Except.ok ("Data upserted into Pinecone: " ++ toString v.valid.length ++ " records")⟩

/-- The text of the C2 counterexample: seven letters, a newline, six
letters.  With `chunk_size = 10`, `overlap = 9` the loop cycles through
`start = 0, -2, -1, 0, ...` forever. -/
def badText : List Char := "aaaaaaa\nzzzzzz".data

/-- The text of the C4 counterexample: a run of ten spaces between two
short words.  With `chunk_size = 4`, `overlap = 1` several windows
consist of whitespace only and are emitted as empty chunks. -/
def wsText : List Char := ("ab" ++ "          " ++ "cd").data

/-! ## Helper lemmas about the embedded primitives -/

theorem dropWhile_eq_self_of_not (p : Char → Bool) (l : List Char)
    (h : ∀ c ∈ l, p c = false) : l.dropWhile p = l := by
  cases l with
  | nil => rfl
  | cons a t =>
    rw [List.dropWhile_cons, h a (List.mem_cons_self a t)]
    simp

theorem trim_eq_self (l : List Char) (h : ∀ c ∈ l, isPySpace c = false) :
    trim l = l := by
  unfold trim
  rw [dropWhile_eq_self_of_not _ _ h]
  rw [dropWhile_eq_self_of_not _ _ (by intro c hc; exact h c (List.mem_reverse.mp hc))]
  exact List.reverse_reverse l

theorem trim_length_le (l : List Char) : (trim l).length ≤ l.length := by
  unfold trim
  rw [List.length_reverse]
  calc ((l.dropWhile isPySpace).reverse.dropWhile isPySpace).length
      ≤ (l.dropWhile isPySpace).reverse.length := (List.dropWhile_sublist _).length_le
    _ = (l.dropWhile isPySpace).length := List.length_reverse _
    _ ≤ l.length := (List.dropWhile_sublist _).length_le

theorem mem_of_mem_trim (l : List Char) (c : Char) (h : c ∈ trim l) : c ∈ l := by
  unfold trim at h
  rw [List.mem_reverse] at h
  have h1 := (List.dropWhile_sublist _).mem h
  rw [List.mem_reverse] at h1
  exact (List.dropWhile_sublist _).mem h1

theorem rfindCharAux_of_not_mem (c : Char) (l : List Char) (i : Nat) (best : Int)
    (h : ∀ x ∈ l, x ≠ c) : rfindCharAux c l i best = best := by
  induction l generalizing i best with
  | nil => rfl
  | cons a t ih =>
    unfold rfindCharAux
    rw [if_neg (h a (List.mem_cons_self a t))]
    exact ih _ _ (fun x hx => h x (List.mem_cons_of_mem a hx))

theorem rfindChar_of_not_mem (l : List Char) (c : Char) (h : ∀ x ∈ l, x ≠ c) :
    rfindChar l c = -1 :=
  rfindCharAux_of_not_mem c l 0 (-1) h

theorem rfindPairAux_of_not_mem (c₁ c₂ : Char) (l : List Char) (i : Nat) (best : Int)
    (h : ∀ x ∈ l, x ≠ c₂) : rfindPairAux c₁ c₂ l i best = best := by
  induction l generalizing i best with
  | nil => rfl
  | cons a t ih =>
    cases t with
    | nil => rfl
    | cons b rest =>
      unfold rfindPairAux
      rw [if_neg (by
        intro hab
        exact h b (List.mem_cons_of_mem a (List.mem_cons_self b rest)) hab.2)]
      exact ih _ _ (fun x hx => h x (List.mem_cons_of_mem a hx))

theorem rfindPair_of_not_mem (l : List Char) (c₁ c₂ : Char) (h : ∀ x ∈ l, x ≠ c₂) :
    rfindPair l c₁ c₂ = -1 :=
  rfindPairAux_of_not_mem c₁ c₂ l 0 (-1) h

theorem findBreak_of_no_ws (chunk : List Char) (cs : Int)
    (h : ∀ c ∈ chunk, isPySpace c = false) : findBreak chunk cs = -1 := by
  have hn : ∀ x ∈ chunk, x ≠ Char.ofNat 10 := by
    intro x hx he
    have := h x hx
    rw [he] at this
    simp [isPySpace] at this
  have hs : ∀ x ∈ chunk, x ≠ Char.ofNat 32 := by
    intro x hx he
    have := h x hx
    rw [he] at this
    simp [isPySpace] at this
  unfold findBreak
  rw [rfindChar_of_not_mem _ _ hn, rfindPair_of_not_mem _ _ _ hs,
    rfindChar_of_not_mem _ _ hs]
  simp

theorem fdiv_two_eq (c : Int) : Int.fdiv c 2 = c / 2 :=
  Int.fdiv_eq_ediv c (by norm_num)

theorem pySlice_subset (l : List Char) (a b : Int) (c : Char)
    (h : c ∈ pySlice l a b) : c ∈ l := by
  unfold pySlice at h
  exact List.mem_of_mem_take (List.mem_of_mem_drop h)

theorem pySlice_length_le (l : List Char) (s c : Int) (hc : 0 ≤ c) :
    ((pySlice l s (s + c)).length : Int) ≤ c := by
  unfold pySlice
  rw [List.length_drop, List.length_take]
  have h1 : pyIdx (s + c) l.length ≤ pyIdx s l.length + c.toNat := by
    unfold pyIdx
    simp only [Nat.min_def]
    split_ifs <;> omega
  have h2 : min (pyIdx (s + c) l.length) l.length ≤ pyIdx (s + c) l.length :=
    Nat.min_le_left _ _
  omega

theorem pySlice_zero_length_le (l : List Char) (b : Int) :
    (pySlice l 0 b).length ≤ l.length := by
  unfold pySlice
  rw [List.length_drop, List.length_take]
  have := Nat.min_le_right (pyIdx b l.length) l.length
  omega

theorem pySlice_ne_nil (l : List Char) (s c : Int) (hs : 0 ≤ s)
    (hsl : s < (l.length : Int)) (hc : 0 < c) : pySlice l s (s + c) ≠ [] := by
  have hlen : 0 < (pySlice l s (s + c)).length := by
    unfold pySlice pyIdx
    rw [List.length_drop, List.length_take]
    simp only [Nat.min_def]
    split_ifs <;> omega
  exact List.length_pos.mp hlen

theorem pySlice_replicate (n : Nat) (x : Char) (a b : Int) :
    pySlice (List.replicate n x) a b
      = List.replicate (min (pyIdx b n) n - pyIdx a n) x := by
  unfold pySlice
  rw [List.length_replicate, List.take_replicate, List.drop_replicate]

/-! ## Lemmas about the chunker loop -/

theorem chunkStep_no_ws (t : List Char) (cs ol start : Int) (hc : 0 ≤ cs)
    (hws : ∀ c ∈ t, isPySpace c = false) :
    chunkStep t cs ol start = (pySlice t start (start + cs), start + cs) := by
  have hwin : ∀ c ∈ pySlice t start (start + cs), isPySpace c = false :=
    fun c hc' => hws c (pySlice_subset _ _ _ _ hc')
  have hfb := findBreak_of_no_ws (pySlice t start (start + cs)) cs hwin
  have hfd : 0 ≤ Int.fdiv cs 2 := by rw [fdiv_two_eq]; omega
  unfold chunkStep
  dsimp only
  split_ifs with h1 h2
  · rw [hfb] at h2; omega
  · rfl
  · rfl

theorem chunkStep_fst_length (t : List Char) (cs ol start : Int) (hc : 0 ≤ cs) :
    (((chunkStep t cs ol start).1.length : Int)) ≤ cs := by
  have hwin := pySlice_length_le t start cs hc
  unfold chunkStep
  dsimp only
  split_ifs with h1 h2
  · have h3 := pySlice_zero_length_le (pySlice t start (start + cs)) (findBreak (pySlice t start (start + cs)) cs)
    simp only
    omega
  · exact hwin
  · exact hwin

theorem chunkStep_progress (t : List Char) (cs ol start : Int) (h1 : 0 < cs)
    (h2 : ol ≤ Int.fdiv cs 2) :
    start + 1 ≤ (chunkStep t cs ol start).2 - ol := by
  rw [fdiv_two_eq] at h2
  unfold chunkStep
  dsimp only
  split_ifs with hc hb
  · rw [fdiv_two_eq] at hb
    simp only
    omega
  · simp only
    omega
  · simp only
    omega

theorem chunkLoop_isSome (t : List Char) (cs ol : Int) (h1 : 0 < cs)
    (h2 : ol ≤ Int.fdiv cs 2) :
    ∀ (fuel : Nat) (start : Int) (acc : List (List Char)),
      ((t.length : Int) - start).toNat < fuel →
      (chunkLoop t cs ol fuel start acc).isSome = true := by
  intro fuel
  induction fuel with
  | zero => intro start acc h; omega
  | succ fuel ih =>
    intro start acc h
    simp only [chunkLoop]
    by_cases hs : start < (t.length : Int)
    · rw [if_pos hs]
      have hp := chunkStep_progress t cs ol start h1 h2
      by_cases hend : (t.length : Int) ≤ (chunkStep t cs ol start).2 - ol
      · rw [if_pos hend]; rfl
      · rw [if_neg hend]
        exact ih _ _ (by omega)
    · rw [if_neg hs]; rfl

theorem chunk_text_isSome (text : List Char) (cs ol : Int) (fuel : Nat)
    (h1 : 0 < cs) (h2 : ol ≤ Int.fdiv cs 2) (hf : text.length < fuel) :
    (chunk_text text cs ol fuel).isSome = true := by
  unfold chunk_text
  dsimp only
  split_ifs with ht hlen
  · rfl
  · rfl
  · have htl : (trim text).length ≤ text.length := trim_length_le text
    exact chunkLoop_isSome (trim text) cs ol h1 h2 fuel 0 [] (by omega)

theorem chunkLoop_all (t : List Char) (cs ol : Int) (P : List Char → Prop)
    (hstep : ∀ start : Int, P (trim (chunkStep t cs ol start).1)) :
    ∀ (fuel : Nat) (start : Int) (acc res : List (List Char)),
      (∀ ch ∈ acc, P ch) → chunkLoop t cs ol fuel start acc = some res →
      ∀ ch ∈ res, P ch := by
  intro fuel
  induction fuel with
  | zero =>
    intro start acc res hacc h
    exact absurd h (by simp [chunkLoop])
  | succ fuel ih =>
    intro start acc res hacc h
    simp only [chunkLoop] at h
    split_ifs at h with hs hend
    · have hres : res = acc ++ [trim (chunkStep t cs ol start).1] := by
        exact (Option.some.injEq _ _ ▸ h).symm ▸ rfl
      subst hres
      intro ch hch
      rcases List.mem_append.mp hch with hch | hch
      · exact hacc ch hch
      · rw [List.mem_singleton.mp hch]; exact hstep start
    · refine ih _ _ _ ?_ h
      intro ch hch
      rcases List.mem_append.mp hch with hch | hch
      · exact hacc ch hch
      · rw [List.mem_singleton.mp hch]; exact hstep start
    · have hres : res = acc := by
        exact (Option.some.injEq _ _ ▸ h).symm ▸ rfl
      subst hres
      exact hacc

theorem chunkLoop_nonempty (t : List Char) (cs ol : Int) (h1 : 0 < cs)
    (holap : ol < cs) (hws : ∀ c ∈ t, isPySpace c = false) :
    ∀ (fuel : Nat) (start : Int) (acc res : List (List Char)),
      0 ≤ start → (∀ ch ∈ acc, ch ≠ []) →
      chunkLoop t cs ol fuel start acc = some res → ∀ ch ∈ res, ch ≠ [] := by
  intro fuel
  induction fuel with
  | zero =>
    intro start acc res hstart hacc h
    exact absurd h (by simp [chunkLoop])
  | succ fuel ih =>
    intro start acc res hstart hacc h
    simp only [chunkLoop] at h
    have hstep := chunkStep_no_ws t cs ol start (le_of_lt h1) hws
    split_ifs at h with hs hend
    · -- last iteration
      have hwin : pySlice t start (start + cs) ≠ [] := pySlice_ne_nil t start cs hstart hs h1
      have hch : trim (chunkStep t cs ol start).1 ≠ [] := by
        rw [hstep]
        rw [trim_eq_self _ (fun c hc => hws c (pySlice_subset _ _ _ _ hc))]
        exact hwin
      have hres : res = acc ++ [trim (chunkStep t cs ol start).1] := by
        exact (Option.some.injEq _ _ ▸ h).symm ▸ rfl
      subst hres
      intro ch hchm
      rcases List.mem_append.mp hchm with hm | hm
      · exact hacc ch hm
      · rw [List.mem_singleton.mp hm]; exact hch
    · -- recursive iteration
      have hwin : pySlice t start (start + cs) ≠ [] := pySlice_ne_nil t start cs hstart hs h1
      have hch : trim (chunkStep t cs ol start).1 ≠ [] := by
        rw [hstep]
        rw [trim_eq_self _ (fun c hc => hws c (pySlice_subset _ _ _ _ hc))]
        exact hwin
      have hstart2 : 0 ≤ (chunkStep t cs ol start).2 - ol := by
        rw [hstep]
        simp only
        omega
      refine ih _ _ _ hstart2 ?_ h
      intro ch hchm
      rcases List.mem_append.mp hchm with hm | hm
      · exact hacc ch hm
      · rw [List.mem_singleton.mp hm]; exact hch
    · have hres : res = acc := by
        exact (Option.some.injEq _ _ ▸ h).symm ▸ rfl
      subst hres
      exact hacc

theorem chunkLoop_succ_step (t : List Char) (cs ol : Int) (fuel : Nat)
    (start : Int) (acc : List (List Char))
    (h1 : start < (t.length : Int))
    (h2 : ¬ (t.length : Int) ≤ (chunkStep t cs ol start).2 - ol) :
    chunkLoop t cs ol (fuel + 1) start acc
      = chunkLoop t cs ol fuel ((chunkStep t cs ol start).2 - ol)
          (acc ++ [trim (chunkStep t cs ol start).1]) := by
  simp only [chunkLoop]
  rw [if_pos h1, if_neg h2]

theorem chunkLoop_succ_last (t : List Char) (cs ol : Int) (fuel : Nat)
    (start : Int) (acc : List (List Char))
    (h1 : start < (t.length : Int))
    (h2 : (t.length : Int) ≤ (chunkStep t cs ol start).2 - ol) :
    chunkLoop t cs ol (fuel + 1) start acc
      = some (acc ++ [trim (chunkStep t cs ol start).1]) := by
  simp only [chunkLoop]
  rw [if_pos h1, if_pos h2]

/-! ## Lemmas about record validation -/

theorem validateRecords_all_rejected (records : List Record)
    (h : ∀ r ∈ records, keepRecord r = false) :
    (validateRecords records).valid = []
      ∧ (validateRecords records).filteredCount = records.length := by
  induction records with
  | nil => exact ⟨rfl, rfl⟩
  | cons r rs ih =>
    have hr : keepRecord r = false := h r (List.mem_cons_self r rs)
    have ih2 := ih (fun x hx => h x (List.mem_cons_of_mem r hx))
    simp only [validateRecords, hr]
    simp only [Bool.false_eq_true, if_false]
    exact ⟨ih2.1, by simp [ih2.2]⟩

/-! ## Lemmas about the assembler with the fixed-width tokenizer -/

theorem buildLoop_charTok_length (mt : Int) :
    ∀ (hits : List (List Char)) (cur : Int) (ctx : List Char),
      (ctx.length : Int) = cur → cur ≤ mt →
      ((buildLoop charTok mt hits cur ctx).length : Int) ≤ mt + 1 := by
  intro hits
  induction hits with
  | nil =>
    intro cur ctx hc hle
    simp only [buildLoop]
    omega
  | cons h rest ih =>
    intro cur ctx hc hle
    have htta : ((charTok.encode (Char.ofNat 32 :: h)).length : Int) = 1 + h.length := by
      simp [charTok]
      omega
    simp only [buildLoop]
    split_ifs with h1 h2 h3
    · -- overflow, positive remainder, non-empty encoding: partial fragment
      rw [List.length_append]
      simp only [List.length_cons, charTok, List.length_map, List.length_take]
      have hmin : min (mt - cur).toNat (h.map Char.toNat).length ≤ (mt - cur).toNat :=
        Nat.min_le_left _ _
      omega
    · omega
    · omega
    · -- no overflow: append the whole hit and continue
      refine ih (cur + (charTok.encode (Char.ofNat 32 :: h)).length) _ ?_ (by omega)
      rw [List.length_append]
      simp only [List.length_cons]
      omega

/-! ## Claim C1: token budget of the context assembler -/

/-- Claim C1, counterexample.  With the injected fixed-width tokenizer
(one token per character), one hit "aa" and a budget of 1 token,
`build_context` returns " a", whose token count is 2 > 1: the leading
space prepended to the partial fragment is not counted against the
budget, so the returned string exceeds `max_tokens`. -/
theorem c1_counterexample :
    build_context charTok ["aa".data] 1 = some (" a".data)
      ∧ ¬ (((charTok.encode (" a".data)).length : Int) ≤ 1) :=
  ⟨by decide, by decide⟩

/-- Claim C1, amended.  For every hit sequence and every positive budget,
the string returned by `build_context` with the fixed-width tokenizer has
a token count of at most `max_tokens + 1`: the budget can be exceeded,
but only by the single uncounted separator-space token in front of the
partial fragment of the first overflowing hit. -/
theorem c1_amended_budget_bound (hits : List (List Char)) (mt : Int)
    (ctx : List Char) (hmt : 0 < mt)
    (h : build_context charTok hits mt = some ctx) :
    ((charTok.encode ctx).length : Int) ≤ mt + 1 := by
  unfold build_context at h
  by_cases hh : hits.length = 0
  · rw [if_pos hh] at h
    exact absurd h (by simp)
  · rw [if_neg hh] at h
    have hctx := Option.some.inj h
    have hb := buildLoop_charTok_length mt hits 0 [] (by simp) (le_of_lt hmt)
    rw [hctx] at hb
    simpa [charTok] using hb


/-- Claim C1, witness for the amended bound at the counterexample input. -/
theorem c1_witness : ((charTok.encode (" a".data)).length : Int) ≤ 1 + 1 :=
  c1_amended_budget_bound ["aa".data] 1 (" a".data) (by norm_num) (by decide)

/-! ## Claim C2: termination of the chunker -/

/-- Helper for the C2 counterexample: on `badText` with `chunk_size = 10`
and `overlap = 9` the loop cycles through the starts 0, -2, -1 forever
(the boundary-truncated end 7 minus the overlap 9 moves `start`
backwards, and the Python slice with a negative start yields empty
windows), so no amount of fuel makes it finish. -/
theorem chunkLoop_badText_cycle :
    ∀ (fuel : Nat) (acc : List (List Char)),
      chunkLoop badText 10 9 fuel 0 acc = none
        ∧ chunkLoop badText 10 9 fuel (-2) acc = none
        ∧ chunkLoop badText 10 9 fuel (-1) acc = none := by
  intro fuel
  induction fuel with
  | zero => intro acc; exact ⟨rfl, rfl, rfl⟩
  | succ fuel ih =>
    intro acc
    refine ⟨?_, ?_, ?_⟩
    · exact (show chunkLoop badText 10 9 (fuel + 1) 0 acc
          = chunkLoop badText 10 9 fuel (-2) (acc ++ ["aaaaaaa".data]) from rfl).trans
        ((ih _).2.1)
    · exact (show chunkLoop badText 10 9 (fuel + 1) (-2) acc
          = chunkLoop badText 10 9 fuel (-1) (acc ++ [([] : List Char)]) from rfl).trans
        ((ih _).2.2)
    · exact (show chunkLoop badText 10 9 (fuel + 1) (-1) acc
          = chunkLoop badText 10 9 fuel 0 (acc ++ [([] : List Char)]) from rfl).trans
        ((ih _).1)

/-- Claim C2, counterexample.  `chunk_size = 10`, `overlap = 9` is a
valid configuration (`0 ≤ overlap < max_size`), yet on `badText` the
loop of `chunk_text` never terminates: no fuel value yields a result. -/
theorem c2_counterexample :
    ¬ ∃ (fuel : Nat) (res : List (List Char)),
        chunk_text badText 10 9 fuel = some res := by
  rintro ⟨fuel, res, h⟩
  rw [show chunk_text badText 10 9 fuel = chunkLoop badText 10 9 fuel 0 [] from rfl,
    (chunkLoop_badText_cycle fuel []).1] at h
  exact Option.noConfusion h

/-- Claim C2, amended.  The chunker terminates whenever
`overlap ≤ max_size // 2` (floor division), in particular for the
default configuration; each iteration then advances `start` by at least
one, so `text.length + 1` iterations always suffice.  Termination does
not hold for all `overlap < max_size` (see the counterexample with
`overlap = 9`, `max_size = 10`). -/
theorem c2_amended_termination (text : List Char) (chunk_size overlap : Int)
    (fuel : Nat) (h1 : 0 < chunk_size) (h2 : 0 ≤ overlap)
    (h3 : overlap ≤ Int.fdiv chunk_size 2) (hf : text.length < fuel) :
    (chunk_text text chunk_size overlap fuel).isSome = true :=
  chunk_text_isSome text chunk_size overlap fuel h1 h3 hf

/-- Claim C2, witness for the amended termination bound. -/
theorem c2_witness : (chunk_text ("abc".data) 2 1 4).isSome = true :=
  c2_amended_termination ("abc".data) 2 1 4 (by norm_num) (by norm_num)
    (by decide) (by decide)

/-! ## Claim C3: no fail-fast validation of configurations -/

/-- Claim C3, counterexample.  Invalid configurations are not rejected:
the chunker with the invalid `overlap = -1` happily proceeds and
returns chunks, and the assembler with the invalid `max_tokens = 0`
proceeds and returns an (empty) context; neither operation fails. -/
theorem c3_counterexample :
    chunk_text ("abcd".data) 2 (-1) 10 = some ["ab".data, "d".data]
      ∧ build_context charTok ["hi".data] 0 = some [] :=
  ⟨by decide, by decide⟩

/-- Claim C3, amended.  The source performs no configuration validation
at all: for a negative overlap the chunker runs to completion and
returns a normal chunk list for every text, and for a non-positive
token budget the assembler returns a normal (empty) context for every
non-empty hit list.  Nothing fails fast; moreover `max_size ≤ 0` makes
the chunker diverge instead of raising. -/
theorem c3_amended_no_validation :
    (∀ (text : List Char) (fuel : Nat), text.length < fuel →
        (chunk_text text 2 (-1) fuel).isSome = true)
      ∧ (∀ hits : List (List Char), hits ≠ [] →
          (build_context charTok hits 0).isSome = true) := by
  constructor
  · intro text fuel hf
    exact chunk_text_isSome text 2 (-1) fuel (by norm_num) (by decide) hf
  · intro hits hne
    unfold build_context
    rw [if_neg (fun hh => hne (List.length_eq_zero.mp hh))]
    rfl

/-- Claim C3, witness for the amended statement. -/
theorem c3_witness :
    (chunk_text ("wxyz".data) 2 (-1) 5).isSome = true
      ∧ (build_context charTok ["yo".data, "ah".data] 0).isSome = true :=
  ⟨c3_amended_no_validation.1 ("wxyz".data) 5 (by decide),
   c3_amended_no_validation.2 _ (by decide)⟩

/-! ## Claim C4: emptiness of returned chunks -/

/-- Claim C4, counterexample.  With the valid configuration
`chunk_size = 4`, `overlap = 1` on a text containing a run of ten
spaces, `chunk_text` returns a list that contains four empty chunks:
whitespace-only windows are trimmed to the empty string and appended
without any emptiness check. -/
theorem c4_counterexample :
    chunk_text wsText 4 1 20
        = some ["ab".data, [], [], [], [], "cd".data, "d".data]
      ∧ ([] : List Char) ∈ ["ab".data, [], [], [], [], "cd".data, "d".data] :=
  ⟨by decide, by decide⟩

/-- Claim C4, amended.  Chunks can be empty after trimming (whitespace
windows, see the counterexample); the non-emptiness invariant does hold
for every input text that contains no whitespace characters. -/
theorem c4_amended_nonempty (text : List Char) (chunk_size overlap : Int)
    (fuel : Nat) (res : List (List Char)) (h1 : 0 < chunk_size)
    (h2 : 0 ≤ overlap) (h3 : overlap < chunk_size)
    (hws : ∀ c ∈ text, isPySpace c = false)
    (h : chunk_text text chunk_size overlap fuel = some res) :
    ∀ ch ∈ res, ch ≠ [] := by
  have hws2 : ∀ c ∈ trim text, isPySpace c = false :=
    fun c hc => hws c (mem_of_mem_trim text c hc)
  unfold chunk_text at h
  dsimp only at h
  split_ifs at h with ht hlen
  · have := Option.some.inj h
    subst this
    intro ch hch
    exact absurd hch (List.not_mem_nil ch)
  · have := Option.some.inj h
    subst this
    intro ch hch
    rw [List.mem_singleton.mp hch]
    exact ht
  · exact chunkLoop_nonempty (trim text) chunk_size overlap h1 h3 hws2
      fuel 0 [] res le_rfl (by intro ch hch; exact absurd hch (List.not_mem_nil ch)) h

/-- Claim C4, witness for the amended statement on a whitespace-free
text. -/
theorem c4_witness :
    chunk_text ("xyz".data) 2 1 10 = some ["xy".data, "yz".data, "z".data]
      ∧ ("xy".data : List Char) ≠ [] :=
  ⟨by decide,
   c4_amended_nonempty ("xyz".data) 2 1 10 ["xy".data, "yz".data, "z".data]
     (by norm_num) (by norm_num) (by norm_num) (by decide) (by decide)
     ("xy".data) (by decide)⟩

/-! ## Claim C5: validation mutates the caller records -/

/-- Claim C5, counterexample.  Validation is not a pure transform: a
record whose text carries surrounding whitespace has its text field
overwritten in place with the stripped text, so after the call the
caller-owned record list differs from what was passed in. -/
theorem c5_counterexample :
    (validateRecords [{ _id := "id1", text := " abc ", assistant := "bot" }]).post
      ≠ [{ _id := "id1", text := " abc ", assistant := "bot" }] := by
  decide

/-- Claim C5, amended.  The validation step of `upsert_data` mutates the
caller-owned records: after the filtering loop each record that passed
validation holds its stripped text (so any kept record with non-trimmed
text is changed in place), while rejected records are left untouched. -/
theorem c5_amended_mutation (records : List Record) :
    (validateRecords records).post
      = records.map
          (fun r => if keepRecord r then { r with text := trimS r.text } else r) := by
  induction records with
  | nil => rfl
  | cons r rs ih =>
    simp only [validateRecords, List.map_cons]
    by_cases hk : keepRecord r
    · simp [hk, ih]
    · simp [hk, ih]

/-! ## Claim C6: the concrete 4500-character scenario -/

/-- Claim C6.  Chunking 4500 identical non-whitespace characters with
`chunk_size = 2000` and `overlap = 100` yields exactly the three chunks
of lengths 2000, 2000 and 700, and these are precisely the windows of
the input at the start offsets 0, 1900 and 3800 (no break point
qualifies, so every window is emitted whole). -/
theorem c6_concrete_chunks :
    chunk_text (List.replicate 4500 'A') 2000 100 10
        = some [List.replicate 2000 'A', List.replicate 2000 'A',
            List.replicate 700 'A']
      ∧ List.replicate 2000 'A' = pySlice (List.replicate 4500 'A') 0 2000
      ∧ List.replicate 2000 'A' = pySlice (List.replicate 4500 'A') 1900 3900
      ∧ List.replicate 700 'A' = pySlice (List.replicate 4500 'A') 3800 4500 := by
  have hws : ∀ c ∈ List.replicate 4500 'A', isPySpace c = false := by
    intro c hc
    rw [List.eq_of_mem_replicate hc]
    decide
  have hA2000 : ∀ c ∈ List.replicate 2000 'A', isPySpace c = false := by
    intro c hc
    rw [List.eq_of_mem_replicate hc]
    decide
  have hA700 : ∀ c ∈ List.replicate 700 'A', isPySpace c = false := by
    intro c hc
    rw [List.eq_of_mem_replicate hc]
    decide
  have hw0 : pySlice (List.replicate 4500 'A') 0 2000 = List.replicate 2000 'A' := by
    rw [pySlice_replicate]
    congr 1
  have hw1 : pySlice (List.replicate 4500 'A') 1900 3900 = List.replicate 2000 'A' := by
    rw [pySlice_replicate]
    congr 1
  have hw2 : pySlice (List.replicate 4500 'A') 3800 5800 = List.replicate 700 'A' := by
    rw [pySlice_replicate]
    congr 1
  have hw2b : pySlice (List.replicate 4500 'A') 3800 4500 = List.replicate 700 'A' := by
    rw [pySlice_replicate]
    congr 1
  have hstep0 : chunkStep (List.replicate 4500 'A') 2000 100 0
      = (List.replicate 2000 'A', 2000) := by
    rw [chunkStep_no_ws _ _ _ _ (by norm_num) hws]
    rw [show (0 : Int) + 2000 = 2000 from by norm_num, hw0]
  have hstep1 : chunkStep (List.replicate 4500 'A') 2000 100 1900
      = (List.replicate 2000 'A', 3900) := by
    rw [chunkStep_no_ws _ _ _ _ (by norm_num) hws]
    rw [show (1900 : Int) + 2000 = 3900 from by norm_num, hw1]
  have hstep2 : chunkStep (List.replicate 4500 'A') 2000 100 3800
      = (List.replicate 700 'A', 5800) := by
    rw [chunkStep_no_ws _ _ _ _ (by norm_num) hws]
    rw [show (3800 : Int) + 2000 = 5800 from by norm_num, hw2]
  have hlen : ((List.replicate 4500 'A').length : Int) = 4500 := by
    rw [List.length_replicate]
    norm_num
  refine ⟨?_, hw0.symm, hw1.symm, hw2b.symm⟩
  have hne : List.replicate 4500 'A' ≠ [] := by
    intro hh
    have hh2 := congrArg List.length hh
    rw [List.length_replicate] at hh2
    exact absurd hh2 (by norm_num)
  have h0 : chunk_text (List.replicate 4500 'A') 2000 100 10
      = chunkLoop (List.replicate 4500 'A') 2000 100 10 0 [] := by
    unfold chunk_text
    dsimp only
    rw [trim_eq_self _ hws]
    rw [if_neg hne, if_neg (by rw [hlen]; norm_num)]
  rw [h0]
  calc chunkLoop (List.replicate 4500 'A') 2000 100 (9 + 1) 0 []
      = chunkLoop (List.replicate 4500 'A') 2000 100 9 1900
          [List.replicate 2000 'A'] := by
        rw [chunkLoop_succ_step _ _ _ _ _ _ (by rw [hlen]; norm_num)
          (by rw [hstep0]; rw [hlen]; norm_num)]
        rw [hstep0, trim_eq_self _ hA2000]
        norm_num
    _ = chunkLoop (List.replicate 4500 'A') 2000 100 8 3800
          [List.replicate 2000 'A', List.replicate 2000 'A'] := by
        rw [show (9 : Nat) = 8 + 1 from rfl]
        rw [chunkLoop_succ_step _ _ _ _ _ _ (by rw [hlen]; norm_num)
          (by rw [hstep1]; rw [hlen]; norm_num)]
        rw [hstep1, trim_eq_self _ hA2000]
        norm_num
    _ = some [List.replicate 2000 'A', List.replicate 2000 'A',
          List.replicate 700 'A'] := by
        rw [show (8 : Nat) = 7 + 1 from rfl]
        rw [chunkLoop_succ_last _ _ _ _ _ _ (by rw [hlen]; norm_num)
          (by rw [hstep2]; rw [hlen]; norm_num)]
        rw [hstep2, trim_eq_self _ hA700]
        rfl

/-! ## Claim C7: chunk length bound -/

/-- Claim C7.  For every input text, every valid configuration and every
terminating run of the chunker, every returned chunk has length at most
`max_size` characters: each window is a slice of span at most
`chunk_size`, boundary truncation only shortens it, and so does
trimming. -/
theorem c7_chunk_length_bound (text : List Char) (chunk_size overlap : Int)
    (fuel : Nat) (res : List (List Char)) (h1 : 0 < chunk_size)
    (h2 : 0 ≤ overlap) (h3 : overlap < chunk_size)
    (h : chunk_text text chunk_size overlap fuel = some res) :
    ∀ ch ∈ res, (ch.length : Int) ≤ chunk_size := by
  unfold chunk_text at h
  dsimp only at h
  split_ifs at h with ht hlen
  · have := Option.some.inj h
    subst this
    intro ch hch
    exact absurd hch (List.not_mem_nil ch)
  · have := Option.some.inj h
    subst this
    intro ch hch
    rw [List.mem_singleton.mp hch]
    exact hlen
  · refine chunkLoop_all (trim text) chunk_size overlap
      (fun ch => (ch.length : Int) ≤ chunk_size) ?_ fuel 0 [] res
      (by intro ch hch; exact absurd hch (List.not_mem_nil ch)) h
    intro start
    calc ((trim (chunkStep (trim text) chunk_size overlap start).1).length : Int)
        ≤ ((chunkStep (trim text) chunk_size overlap start).1.length : Int) :=
          Nat.cast_le.mpr (trim_length_le _)
      _ ≤ chunk_size :=
          chunkStep_fst_length _ _ _ _ (le_of_lt h1)

/-- Claim C7, witness at a concrete run. -/
theorem c7_witness :
    chunk_text ("aaa".data) 2 1 10 = some ["aa".data, "aa".data, "a".data]
      ∧ (("aa".data).length : Int) ≤ 2 :=
  ⟨by decide,
   c7_chunk_length_bound ("aaa".data) 2 1 10 ["aa".data, "aa".data, "a".data]
     (by norm_num) (by norm_num) (by norm_num) (by decide) ("aa".data) (by decide)⟩

/-! ## Claim C8: the short-text fast path -/

/-- Claim C8, counterexample.  The one-space text has length 1, which is
at most `chunk_size = 5`, yet `chunk_text` returns the empty sequence,
not a one-element sequence: empty and whitespace-only inputs take the
empty-return branch first. -/
theorem c8_counterexample :
    chunk_text (" ".data) 5 1 3 = some []
      ∧ some ([] : List (List Char)) ≠ some [trim (" ".data)] :=
  ⟨by decide, by decide⟩

/-- Claim C8, amended.  For every text whose trimmed form is non-empty
and whose length is at most `chunk_size`, the chunker returns exactly
one element, the trimmed input; the empty and whitespace-only texts
instead give the empty sequence. -/
theorem c8_amended_single_chunk (text : List Char) (chunk_size overlap : Int)
    (fuel : Nat) (hne : trim text ≠ [])
    (hlen : (text.length : Int) ≤ chunk_size) :
    chunk_text text chunk_size overlap fuel = some [trim text] := by
  unfold chunk_text
  dsimp only
  rw [if_neg hne, if_pos]
  calc ((trim text).length : Int) ≤ (text.length : Int) :=
        Nat.cast_le.mpr (trim_length_le text)
    _ ≤ chunk_size := hlen

/-- Claim C8, witness. -/
theorem c8_witness : chunk_text ("hi".data) 5 1 0 = some ["hi".data] :=
  c8_amended_single_chunk ("hi".data) 5 1 0 (by decide) (by decide)

/-! ## Claim C9: the all-records-rejected error -/

/-- Claim C9.  When the input list is non-empty and every record fails
validation, `upsert_data` raises the ValueError whose message carries
the count of rejected records (which is the whole input length), rather
than silently returning an empty set. -/
theorem c9_all_rejected_error (records : List Record) (hne : records ≠ [])
    (hall : ∀ r ∈ records, keepRecord r = false) :
    (upsert_data records).outcome
      = Except.error (allRejectedMsg records.length) := by
  have hv := validateRecords_all_rejected records hall
  unfold upsert_data
  rw [if_neg hne]
  dsimp only
  rw [if_pos hv.1, hv.2]

/-- Claim C9, witness: one record with empty text. -/
theorem c9_witness :
    (upsert_data [{ _id := "id1", text := "", assistant := "bot" }]).outcome
      = Except.error (allRejectedMsg 1) :=
  c9_all_rejected_error [{ _id := "id1", text := "", assistant := "bot" }]
    (by decide) (by decide)

/-! ## Claim C10: the empty-input error -/

/-- Claim C10.  Calling `upsert_data` with the empty record list raises
the dedicated ValueError at once: the caller records are untouched, no
call is issued to the external store, and the message differs from the
all-records-rejected message for every rejection count. -/
theorem c10_empty_input_error :
    upsert_data ([] : List Record)
        = ⟨[], [], Except.error "No records provided for upsert"⟩
      ∧ (upsert_data ([] : List Record)).storeCalls = []
      ∧ ∀ n : Nat, allRejectedMsg n ≠ "No records provided for upsert" := by
  refine ⟨rfl, rfl, ?_⟩
  intro n h
  have hl := congrArg String.length h
  simp only [allRejectedMsg, String.length_append] at hl
  have e1 : "No valid records after filtering. Filtered out ".length = 47 := by decide
  have e2 : " invalid records.".length = 17 := by decide
  have e3 : "No records provided for upsert".length = 30 := by decide
  omega
